import Mathlib

/-!
Verification of the ManningApp spreadsheet roster loader (src/main.rs).

The development embeds the pure core of the program:
  * `to_hankaku` — fullwidth-to-halfwidth text normalization;
  * the Date-Cell Locator (the row-major scan in `load_excel`);
  * the Roster Extractor (the per-row staff collection in `load_excel`);
  * `load_excel` itself as a state transformer over the application state.

Cells are modelled by the three observables the program reads from a
spreadsheet cell: its native date interpretation (`as_date`), its integer
interpretation (`as_i64`), and its textual rendering (`format`).
-/

/-- Unicode whitespace predicate mirroring Rust `char::is_whitespace`
(the White_Space property). -/
def isRustWhitespace (c : Char) : Bool :=
  let n := c.toNat
  (9 ≤ n && n ≤ 13) || n = 32 || n = 133 || n = 160 || n = 5760 ||
  (8192 ≤ n && n ≤ 8202) || n = 8232 || n = 8233 || n = 8239 || n = 8287 ||
  n = 12288

/-- `str::trim`: remove leading and trailing whitespace characters. -/
def rustTrim (s : String) : String :=
  String.mk (((s.data.dropWhile isRustWhitespace).reverse.dropWhile
      isRustWhitespace).reverse)

/-- `u32::from_str` (`"…".parse::<u32>()`): an optional leading `+`, then one
or more ASCII digits, value below 2^32; anything else fails. -/
def parseU32 (s : String) : Option Nat :=
  let cs := if s.data.head? = some '+' then s.data.tail else s.data
  if cs.isEmpty then none
  else if cs.all Char.isDigit then
    let n := cs.foldl (fun acc c => acc * 10 + (c.toNat - 48)) 0
    if n < 2 ^ 32 then some n else none
  else none

/-- `lhs.isPrefixOf rhs` on character lists (Bool-valued). -/
def isPrefixList : List Char → List Char → Bool
  | [], _ => true
  | _ :: _, [] => false
  | a :: as, b :: bs => (a == b) && isPrefixList as bs

/-- Helper for substring containment: does `need` occur in `hay`? -/
def containsAux (need : List Char) : List Char → Bool
  | [] => need.isEmpty
  | h :: t => isPrefixList need (h :: t) || containsAux need t

/-- Rust `str::contains` with a string pattern: substring containment. -/
def strContains (hay need : String) : Bool := containsAux need.data hay.data

/-- Per-character fullwidth-to-halfwidth conversion, mirroring the `match`
inside `to_hankaku` in src/main.rs. -/
def hankakuChar (c : Char) : Char :=
  if '０' ≤ c ∧ c ≤ '９' then Char.ofNat (c.toNat - '０'.toNat + '0'.toNat)
  else if 'Ａ' ≤ c ∧ c ≤ 'Ｚ' then Char.ofNat (c.toNat - 'Ａ'.toNat + 'A'.toNat)
  else if 'ａ' ≤ c ∧ c ≤ 'ｚ' then Char.ofNat (c.toNat - 'ａ'.toNat + 'a'.toNat)
  else if c = '　' then ' '
  else c

/-- `to_hankaku` from src/main.rs: map `hankakuChar` over the characters. -/
def to_hankaku (s : String) : String := String.mk (s.data.map hankakuChar)

/-- The characters `to_hankaku` targets: fullwidth digits, fullwidth Latin
letters (both cases) and the fullwidth space. -/
def isFullwidthTarget (c : Char) : Bool :=
  ('０' ≤ c && c ≤ '９') || ('Ａ' ≤ c && c ≤ 'Ｚ') ||
  ('ａ' ≤ c && c ≤ 'ｚ') || (c == '　')

/-- A spreadsheet cell, by the three observables `load_excel` reads:
`as_date()` (month and day of the native date interpretation, when any),
`as_i64()` (the integer interpretation, when any), and the `Display`
rendering. -/
structure Cell where
  asDate : Option (Nat × Nat)
  asI64 : Option Int
  text : String
deriving DecidableEq

instance : Inhabited Cell := ⟨⟨none, none, ""⟩⟩

/-- Shorthand for a purely textual cell. -/
def textCell (s : String) : Cell := ⟨none, none, s⟩

/-- Locator rule 1 (`cell.as_date()`): the native date's month and day both
equal today's. -/
def dateRule (month day : Nat) (c : Cell) : Bool :=
  match c.asDate with
  | some (m, d) => decide (m = month) && decide (d = day)
  | none => false

/-- Locator rule 2 (`cell.as_i64()`): the integer value, cast `as u32`
(reduction modulo 2^32), equals today's day. -/
def intRule (day : Nat) (c : Cell) : Bool :=
  match c.asI64 with
  | some v => decide ((v % (2 ^ 32 : Int)).toNat = day)
  | none => false

/-- Locator rule 3: the normalized, trimmed text parses as a `u32` equal to
today's day. -/
def numTextRule (day : Nat) (norm : String) : Bool :=
  match parseU32 (rustTrim norm) with
  | some d => decide (d = day)
  | none => false

/-- `str::split(sep)` on the character level: the pieces between occurrences
of `sep` (empty pieces included, as in Rust). -/
def splitChar (sep : Char) : List Char → List (List Char)
  | [] => [[]]
  | c :: cs =>
    let r := splitChar sep cs
    if c == sep then [] :: r
    else (c :: r.headD []) :: r.tail

/-- `"…".split('/')` as `load_excel` uses it, producing strings. -/
def splitSlash (s : String) : List String :=
  (splitChar '/' s.data).map String.mk

/-- Locator rule 4: split the normalized text on `/`; two parts are read as
month/day, three or more as year/month/day; both parsed fields must equal
today's. -/
def slashRule (month day : Nat) (norm : String) : Bool :=
  let parts := splitSlash norm
  if 2 ≤ parts.length then
    let mIdx := if parts.length = 2 then 0 else 1
    let dIdx := if parts.length = 2 then 1 else 2
    match parseU32 (rustTrim (parts.getD mIdx "")),
        parseU32 (rustTrim (parts.getD dIdx "")) with
    | some m, some d => decide (m = month) && decide (d = day)
    | _, _ => false
  else false

/-- Locator rule 5: the normalized text contains `m/d` or `m月d日` as a
substring. -/
def containsRule (month day : Nat) (norm : String) : Bool :=
  strContains norm (toString month ++ "/" ++ toString day) ||
  strContains norm (toString month ++ "月" ++ toString day ++ "日")

/-- A cell matches when any of the five Locator rules accepts it (each rule
in `load_excel` independently sets `found_date_pos` and breaks the scan). -/
def cellMatches (month day : Nat) (c : Cell) : Bool :=
  dateRule month day c || intRule day c ||
  (let norm := to_hankaku c.text
   numTextRule day norm || slashRule month day norm ||
   containsRule month day norm)

/-- Index of the first element satisfying `p`, if any. -/
def findFirst {α : Type} (p : α → Bool) : List α → Option Nat
  | [] => none
  | a :: as => if p a then some 0 else (findFirst p as).map (· + 1)

/-- The Locator scan over the rows, front row first; mirrors the labelled
`'outer` loop in `load_excel`. -/
def locateDateGo (month day : Nat) : List (List Cell) → Option (Nat × Nat)
  | [] => none
  | row :: rest =>
    match findFirst (cellMatches month day) row with
    | some j => some (0, j)
    | none => (locateDateGo month day rest).map (fun rc => (rc.1 + 1, rc.2))

/-- The Date-Cell Locator: first cell, in row-major order, matching today's
(month, day); `none` when the grid holds no match. -/
def locateDate (grid : List (List Cell)) (month day : Nat) :
    Option (Nat × Nat) :=
  locateDateGo month day grid

/-- The cell of `grid` at (row `i`, column `j`), when both are in range. -/
def cellAt (grid : List (List Cell)) (i j : Nat) : Option Cell :=
  (grid.get? i).bind fun row => row.get? j

/-- The four shift keywords, in the fixed order used by `load_excel`:
early (早), day (日), late (遅), night (夜). -/
def shiftKeywords : List String := ["早", "日", "遅", "夜"]

/-- The staff name of a row: the leftmost cell strictly left of `shiftCol`
whose trimmed text is non-empty, or `""` when there is none; mirrors the
name-search loop of `load_excel`. -/
def findName (row : List Cell) (shiftCol : Nat) : String :=
  match (row.take shiftCol).find? (fun c => !(rustTrim c.text == "")) with
  | some c => rustTrim c.text
  | none => ""

/-- One step of the Roster Extractor: process one data row against the
accumulated four category lists, mirroring the body of the row loop in
`load_excel`. -/
def processRow (shiftCol : Nat) (acc : List (List String))
    (row : List Cell) : List (List String) :=
  if row.length ≤ shiftCol then acc
  else
    let shiftVal := rustTrim (row.getD shiftCol default).text
    if shiftVal = "" then acc
    else
      let name := findName row shiftCol
      if name = "" then acc
      else
        match findFirst (fun kw => strContains shiftVal kw) shiftKeywords with
        | some i => acc.set i ((acc.getD i []) ++ [name])
        | none => acc

/-- The initial accumulator `vec![vec![]; 4]`. -/
def emptyStaff : List (List String) := [[], [], [], []]

/-- The Roster Extractor: fold the rows from index `dateRow + 2` onward into
the four category lists. -/
def extractStaff (grid : List (List Cell)) (dateRow shiftCol : Nat) :
    List (List String) :=
  (grid.drop (dateRow + 2)).foldl (processRow shiftCol) emptyStaff

/-- The final write-back loop: each category that collected at least one name
is joined with `、` and replaces the field; empty categories keep the prior
field value. -/
def updateNames (prev : List String) (collected : List (List String)) :
    List String :=
  List.zipWith (fun p c => if c.isEmpty then p else String.intercalate "、" c)
    prev collected

/-- A workbook as `load_excel` observes it: the sheet-name list and the
outcome of reading the first sheet's range. -/
structure Workbook where
  sheetNames : List String
  firstRange : Option (List (List Cell))

/-- The application state fields `load_excel` can reach. `today` is kept as
its (year, month, day) components; the function reads only month and day. -/
structure ManningApp where
  date_display : String
  today_year : Int
  today_month : Nat
  today_day : Nat
  staff_names : List String
  schedule_text : String
  status_message : String

/-- `ManningApp::load_excel`: the state transformer on the application state,
parameterised by the outcome of `open_workbook` on the chosen path. -/
def load_excel (app : ManningApp) (result : Except String Workbook) :
    ManningApp :=
  match result with
  | .error e => { app with status_message := "❌ ファイルを開けません: " ++ e }
  | .ok wb =>
    if wb.sheetNames.isEmpty then
      { app with status_message := "❌ シートが見つかりません" }
    else
      match wb.firstRange with
      | none =>
        { app with status_message := "❌ シートの読み込みに失敗しました" }
      | some range =>
        match locateDate range app.today_month app.today_day with
        | some (dateRowIdx, shiftColIdx) =>
          { app with
            staff_names :=
              updateNames app.staff_names
                (extractStaff range dateRowIdx shiftColIdx),
            status_message :=
              "✅ エクセルを読み込みました (行:" ++ toString (dateRowIdx + 1) ++
                ", 列:" ++ toString (shiftColIdx + 1) ++ ")" }
        | none =>
          { app with
            status_message :=
              "❌ 本日(" ++ toString app.today_month ++ "月" ++
                toString app.today_day ++ "日)の日付列が見つかりません" }

/-- A purely spec-level restatement of one row's contribution to category
`i`: the row is skipped when it is shorter than `shiftCol + 1`, when the
trimmed shift-marker cell is empty, or when no name is found left of
`shiftCol`; otherwise it contributes its name exactly when `i` is the first
keyword index whose keyword occurs in the marker text. -/
def specContribution (shiftCol i : Nat) (row : List Cell) : Option String :=
  if row.length ≤ shiftCol then none
  else
    let shiftVal := rustTrim (row.getD shiftCol default).text
    if shiftVal = "" then none
    else
      let name := findName row shiftCol
      if name = "" then none
      else if findFirst (fun kw => strContains shiftVal kw) shiftKeywords
          = some i then some name
      else none

/-- Whether a load attempt reaches the success branch of `load_excel`:
the workbook opened, has a sheet, the sheet read, and the Locator found
today's cell. -/
def loadSucceedsB (result : Except String Workbook) (month day : Nat) : Bool :=
  match result with
  | .error _ => false
  | .ok wb =>
    !wb.sheetNames.isEmpty &&
      (match wb.firstRange with
       | none => false
       | some range => (locateDate range month day).isSome)

theorem findFirst_eq_some_iff {α : Type} (p : α → Bool) (l : List α)
    (j : Nat) :
    findFirst p l = some j ↔
      (∃ a, l.get? j = some a ∧ p a = true) ∧
      ∀ j' a, j' < j → l.get? j' = some a → p a = false := by
  induction l generalizing j with
  | nil => simp [findFirst]
  | cons x xs ih =>
    by_cases hx : p x = true
    · simp only [findFirst, hx, if_true]
      constructor
      · intro h
        injection h with h
        subst h
        exact ⟨⟨x, rfl, hx⟩, fun j' a hj' => by omega⟩
      · rintro ⟨⟨a, ha, hpa⟩, hfirst⟩
        cases j with
        | zero => rfl
        | succ j =>
          have h0 := hfirst 0 x (Nat.succ_pos j) rfl
          rw [hx] at h0
          cases h0
    · have hx' : p x = false := by
        cases h : p x
        · rfl
        · exact absurd h hx
      simp only [findFirst, hx', if_false, Bool.false_eq_true]
      rw [Option.map_eq_some']
      constructor
      · rintro ⟨j₀, hj₀, rfl⟩
        obtain ⟨⟨a, ha, hpa⟩, hfirst⟩ := (ih j₀).1 hj₀
        refine ⟨⟨a, by simpa using ha, hpa⟩, ?_⟩
        intro j' b hj' hb
        cases j' with
        | zero =>
          have hbx : x = b := by simpa using hb
          subst hbx
          exact hx'
        | succ j' => exact hfirst j' b (by omega) (by simpa using hb)
      · rintro ⟨⟨a, ha, hpa⟩, hfirst⟩
        cases j with
        | zero =>
          have hax : x = a := by simpa using ha
          subst hax
          rw [hpa] at hx'
          cases hx'
        | succ j =>
          refine ⟨j, (ih j).2 ⟨⟨a, by simpa using ha, hpa⟩, ?_⟩, rfl⟩
          intro j' b hj' hb
          exact hfirst (j' + 1) b (by omega) (by simpa using hb)

theorem findFirst_eq_none_iff {α : Type} (p : α → Bool) (l : List α) :
    findFirst p l = none ↔ ∀ j a, l.get? j = some a → p a = false := by
  induction l with
  | nil => simp [findFirst]
  | cons x xs ih =>
    by_cases hx : p x = true
    · simp only [findFirst, hx, if_true]
      constructor
      · intro h
        cases h
      · intro h
        have h0 := h 0 x rfl
        rw [hx] at h0
        cases h0
    · have hx' : p x = false := by
        cases h : p x
        · rfl
        · exact absurd h hx
      simp only [findFirst, hx', if_false, Bool.false_eq_true,
        Option.map_eq_none']
      rw [ih]
      constructor
      · intro h j a ha
        cases j with
        | zero =>
          have hax : x = a := by simpa using ha
          subst hax
          exact hx'
        | succ j => exact h j a (by simpa using ha)
      · intro h j a ha
        exact h (j + 1) a (by simpa using ha)

theorem findFirst_lt_length {α : Type} {p : α → Bool} {l : List α} {j : Nat}
    (h : findFirst p l = some j) : j < l.length := by
  obtain ⟨⟨a, ha, _⟩, _⟩ := (findFirst_eq_some_iff p l j).1 h
  obtain ⟨hlt, _⟩ := List.get?_eq_some.1 ha
  exact hlt

theorem cellAt_cons_zero (row : List Cell) (rest : List (List Cell))
    (j : Nat) : cellAt (row :: rest) 0 j = row.get? j := by
  simp [cellAt]

theorem cellAt_cons_succ (row : List Cell) (rest : List (List Cell))
    (i j : Nat) : cellAt (row :: rest) (i + 1) j = cellAt rest i j := by
  simp [cellAt]

theorem locateDateGo_eq_some_iff (month day : Nat)
    (grid : List (List Cell)) (r c : Nat) :
    locateDateGo month day grid = some (r, c) ↔
      (∃ cell, cellAt grid r c = some cell ∧
        cellMatches month day cell = true) ∧
      ∀ i j cell, cellAt grid i j = some cell →
        (i < r ∨ (i = r ∧ j < c)) → cellMatches month day cell = false := by
  induction grid generalizing r with
  | nil => simp [locateDateGo, cellAt]
  | cons row rest ih =>
    cases hfind : findFirst (cellMatches month day) row with
    | some j =>
      simp only [locateDateGo, hfind, Option.some.injEq, Prod.mk.injEq]
      obtain ⟨⟨a, ha, hpa⟩, hfirst⟩ := (findFirst_eq_some_iff _ _ _).1 hfind
      constructor
      · rintro ⟨rfl, rfl⟩
        refine ⟨⟨a, by rw [cellAt_cons_zero]; exact ha, hpa⟩, ?_⟩
        intro i j' cell hc hij
        match i, hij with
        | 0, hij =>
          have hij' : j' < j := by omega
          rw [cellAt_cons_zero] at hc
          exact hfirst j' cell hij' hc
      · rintro ⟨⟨cell, hcell, hm⟩, hbefore⟩
        cases r with
        | zero =>
          refine ⟨rfl, ?_⟩
          rw [cellAt_cons_zero] at hcell
          rcases Nat.lt_trichotomy j c with hlt | heq | hgt
          · have := hbefore 0 j a (by rw [cellAt_cons_zero]; exact ha)
              (Or.inr ⟨rfl, hlt⟩)
            rw [hpa] at this
            cases this
          · exact heq
          · have := hfirst c cell hgt hcell
            rw [hm] at this
            cases this
        | succ r =>
          have := hbefore 0 j a (by rw [cellAt_cons_zero]; exact ha)
            (Or.inl (Nat.succ_pos r))
          rw [hpa] at this
          cases this
    | none =>
      simp only [locateDateGo, hfind]
      have hrow := (findFirst_eq_none_iff _ _).1 hfind
      rw [Option.map_eq_some']
      constructor
      · rintro ⟨⟨r₀, c₀⟩, hgo, heq⟩
        obtain ⟨h1, h2⟩ : r₀ + 1 = r ∧ c₀ = c := by
          simpa using heq
        subst h1
        subst h2
        obtain ⟨⟨cell, hcell, hm⟩, hfirst⟩ := (ih r₀).1 hgo
        refine ⟨⟨cell, by rw [cellAt_cons_succ]; exact hcell, hm⟩, ?_⟩
        intro i j cell' hc hij
        cases i with
        | zero =>
          rw [cellAt_cons_zero] at hc
          exact hrow j cell' hc
        | succ i =>
          rw [cellAt_cons_succ] at hc
          exact hfirst i j cell' hc (by omega)
      · rintro ⟨⟨cell, hcell, hm⟩, hfirst⟩
        cases r with
        | zero =>
          rw [cellAt_cons_zero] at hcell
          have := hrow c cell hcell
          rw [hm] at this
          cases this
        | succ r =>
          refine ⟨(r, c), (ih r).2 ⟨⟨cell, ?_, hm⟩, ?_⟩, rfl⟩
          · rw [cellAt_cons_succ] at hcell
            exact hcell
          · intro i j cell' hc hij
            exact hfirst (i + 1) j cell'
              (by rw [cellAt_cons_succ]; exact hc) (by omega)

theorem locateDateGo_eq_none_iff (month day : Nat)
    (grid : List (List Cell)) :
    locateDateGo month day grid = none ↔
      ∀ i j cell, cellAt grid i j = some cell →
        cellMatches month day cell = false := by
  induction grid with
  | nil => simp [locateDateGo, cellAt]
  | cons row rest ih =>
    cases hfind : findFirst (cellMatches month day) row with
    | some j =>
      simp only [locateDateGo, hfind]
      obtain ⟨⟨a, ha, hpa⟩, _⟩ := (findFirst_eq_some_iff _ _ _).1 hfind
      constructor
      · intro h
        cases h
      · intro h
        have := h 0 j a (by rw [cellAt_cons_zero]; exact ha)
        rw [hpa] at this
        cases this
    | none =>
      simp only [locateDateGo, hfind, Option.map_eq_none']
      have hrow := (findFirst_eq_none_iff _ _).1 hfind
      rw [ih]
      constructor
      · intro h i j cell hc
        cases i with
        | zero =>
          rw [cellAt_cons_zero] at hc
          exact hrow j cell hc
        | succ i =>
          rw [cellAt_cons_succ] at hc
          exact h i j cell hc
      · intro h i j cell hc
        exact h (i + 1) j cell (by rw [cellAt_cons_succ]; exact hc)

/-- C1: for every grid and every (month, day), the Date-Cell Locator scans
cells in row-major order (rows top-to-bottom, columns left-to-right within a
row) and returns the (row, column) of the first cell satisfying any of its
five matching rules; if no cell in the grid satisfies any rule, it returns
no-result. -/
theorem locateDate_first_row_major (grid : List (List Cell))
    (month day r c : Nat) :
    (locateDate grid month day = some (r, c) ↔
      (∃ cell, cellAt grid r c = some cell ∧
        cellMatches month day cell = true) ∧
      ∀ i j cell, cellAt grid i j = some cell →
        (i < r ∨ (i = r ∧ j < c)) → cellMatches month day cell = false) ∧
    (locateDate grid month day = none ↔
      ∀ i j cell, cellAt grid i j = some cell →
        cellMatches month day cell = false) :=
  ⟨locateDateGo_eq_some_iff month day grid r c,
   locateDateGo_eq_none_iff month day grid⟩

/-- C3 counterexample: a cell whose integer value is 2^32 + 14 satisfies the
pure-integer rule for day 14, although its value differs from 14 — the rule
does not compare the integer itself with today's day. -/
theorem intRule_counterexample :
    (Cell.mk none (some (2 ^ 32 + 14)) "4294967310").asI64
        = some (2 ^ 32 + 14) ∧
    intRule 14 (Cell.mk none (some (2 ^ 32 + 14)) "4294967310") = true ∧
    (2 ^ 32 + 14 : Int) ≠ (14 : Int) := by
  refine ⟨rfl, by decide, by decide⟩

/-- C3 (amended): the pure-integer rule matches exactly when the cell's
integer value, reduced modulo 2^32 (the `as u32` cast), equals today's day;
the month is not checked. -/
theorem intRule_matches_iff_mod (day : Nat) (v : Int)
    (dOpt : Option (Nat × Nat)) (t : String) :
    intRule day (Cell.mk dOpt (some v) t) = true ↔
      (v % (2 ^ 32 : Int)).toNat = day := by
  simp [intRule]

/-- C9: the pure-integer rule truncates the 64-bit value to 32 unsigned bits
(reduction modulo 2^32) before the comparison: it matches exactly when
v mod 2^32 equals today's day, so a cell holding 2^32 + d, or d - 2^32,
matches day d. -/
theorem intRule_truncates_mod_2pow32 (day : Nat) (v : Int)
    (dOpt : Option (Nat × Nat)) (t : String) (hday : day < 2 ^ 32) :
    (intRule day (Cell.mk dOpt (some v) t) = true ↔
      v % (2 ^ 32 : Int) = (day : Int)) ∧
    intRule day (Cell.mk dOpt (some ((2 ^ 32 : Int) + day)) t) = true ∧
    intRule day (Cell.mk dOpt (some ((day : Int) - 2 ^ 32)) t) = true := by
  have hmod : ∀ w : Int, 0 ≤ w % (2 ^ 32 : Int) := by
    intro w
    exact Int.emod_nonneg w (by norm_num)
  refine ⟨?_, ?_, ?_⟩
  · simp only [intRule, decide_eq_true_eq]
    constructor
    · intro h
      rw [← h]
      exact (Int.toNat_of_nonneg (hmod v)).symm
    · intro h
      rw [h]
      exact Int.toNat_natCast day
  · simp only [intRule, decide_eq_true_eq]
    have : ((2 ^ 32 : Int) + day) % (2 ^ 32 : Int) = (day : Int) := by
      omega
    omega
  · simp only [intRule, decide_eq_true_eq]
    omega

/-- Witness for C9 at day 14. -/
theorem intRule_truncates_witness :
    14 < 2 ^ 32 ∧
      ((intRule 14 (Cell.mk none (some 4294967310) "") = true ↔
         (4294967310 : Int) % (2 ^ 32 : Int) = ((14 : Nat) : Int)) ∧
       intRule 14 (Cell.mk none (some ((2 ^ 32 : Int) + (14 : Nat))) "")
           = true ∧
       intRule 14 (Cell.mk none (some (((14 : Nat) : Int) - 2 ^ 32)) "")
           = true) :=
  ⟨by decide, intRule_truncates_mod_2pow32 14 4294967310 none "" (by decide)⟩

theorem slashRule_len2 (month day : Nat) (s : String)
    (h2 : (splitSlash s).length = 2) :
    slashRule month day s =
      match parseU32 (rustTrim ((splitSlash s).getD 0 "")),
          parseU32 (rustTrim ((splitSlash s).getD 1 "")) with
      | some m, some d => decide (m = month) && decide (d = day)
      | _, _ => false := by
  unfold slashRule
  simp [h2]

theorem slashRule_len3 (month day : Nat) (s : String)
    (h3 : 3 ≤ (splitSlash s).length) :
    slashRule month day s =
      match parseU32 (rustTrim ((splitSlash s).getD 1 "")),
          parseU32 (rustTrim ((splitSlash s).getD 2 "")) with
      | some m, some d => decide (m = month) && decide (d = day)
      | _, _ => false := by
  unfold slashRule
  have hne : (splitSlash s).length ≠ 2 := by omega
  rw [if_pos (by omega : 2 ≤ (splitSlash s).length)]
  simp [hne]

/-- C4: the slash-delimited rule splits the normalized text on `/`; two
parts are read as month and day, three or more parts as year/month/day
(2nd and 3rd parts used), and it matches exactly when the parsed month and
day equal today's. -/
theorem slashRule_spec (month day : Nat) (s : String) :
    slashRule month day s = true ↔
      ∃ m d : Nat,
        (((splitSlash s).length = 2 ∧
          parseU32 (rustTrim ((splitSlash s).getD 0 "")) = some m ∧
          parseU32 (rustTrim ((splitSlash s).getD 1 "")) = some d) ∨
         (3 ≤ (splitSlash s).length ∧
          parseU32 (rustTrim ((splitSlash s).getD 1 "")) = some m ∧
          parseU32 (rustTrim ((splitSlash s).getD 2 "")) = some d)) ∧
        m = month ∧ d = day := by
  rcases Nat.lt_or_ge (splitSlash s).length 2 with hlen | hlen
  · have hfalse : slashRule month day s = false := by
      unfold slashRule
      rw [if_neg (by omega)]
    rw [hfalse]
    simp only [Bool.false_eq_true, false_iff]
    rintro ⟨m, d, hcase, rfl, rfl⟩
    rcases hcase with ⟨h, -, -⟩ | ⟨h, -, -⟩ <;> omega
  · by_cases h2 : (splitSlash s).length = 2
    · rw [slashRule_len2 month day s h2]
      cases hm : parseU32 (rustTrim ((splitSlash s).getD 0 "")) with
      | none =>
        simp only [Bool.false_eq_true, false_iff]
        rintro ⟨m, d, hcase, rfl, rfl⟩
        rcases hcase with ⟨-, hm', -⟩ | ⟨h3, -, -⟩
        · exact Option.noConfusion hm'
        · omega
      | some m₀ =>
        cases hd : parseU32 (rustTrim ((splitSlash s).getD 1 "")) with
        | none =>
          simp only [Bool.false_eq_true, false_iff]
          rintro ⟨m, d, hcase, rfl, rfl⟩
          rcases hcase with ⟨-, -, hd'⟩ | ⟨h3, -, -⟩
          · exact Option.noConfusion hd'
          · omega
        | some d₀ =>
          simp only [Bool.and_eq_true, decide_eq_true_eq]
          constructor
          · rintro ⟨rfl, rfl⟩
            exact ⟨m₀, d₀, Or.inl ⟨h2, rfl, rfl⟩, rfl, rfl⟩
          · rintro ⟨m, d, hcase, rfl, rfl⟩
            rcases hcase with ⟨-, hm', hd'⟩ | ⟨h3, -, -⟩
            · injection hm' with h1
              injection hd' with h2'
              exact ⟨h1, h2'⟩
            · omega
    · have h3 : 3 ≤ (splitSlash s).length := by omega
      rw [slashRule_len3 month day s h3]
      cases hm : parseU32 (rustTrim ((splitSlash s).getD 1 "")) with
      | none =>
        simp only [Bool.false_eq_true, false_iff]
        rintro ⟨m, d, hcase, rfl, rfl⟩
        rcases hcase with ⟨hl2, -, -⟩ | ⟨-, hm', -⟩
        · exact h2 hl2
        · exact Option.noConfusion hm'
      | some m₀ =>
        cases hd : parseU32 (rustTrim ((splitSlash s).getD 2 "")) with
        | none =>
          simp only [Bool.false_eq_true, false_iff]
          rintro ⟨m, d, hcase, rfl, rfl⟩
          rcases hcase with ⟨hl2, -, -⟩ | ⟨-, -, hd'⟩
          · exact h2 hl2
          · exact Option.noConfusion hd'
        | some d₀ =>
          simp only [Bool.and_eq_true, decide_eq_true_eq]
          constructor
          · rintro ⟨rfl, rfl⟩
            exact ⟨m₀, d₀, Or.inr ⟨h3, rfl, rfl⟩, rfl, rfl⟩
          · rintro ⟨m, d, hcase, rfl, rfl⟩
            rcases hcase with ⟨hl2, -, -⟩ | ⟨-, hm', hd'⟩
            · exact absurd hl2 h2
            · injection hm' with h1
              injection hd' with h2'
              exact ⟨h1, h2'⟩

theorem char_le_iff {a b : Char} : a ≤ b ↔ a.toNat ≤ b.toNat := Iff.rfl

theorem char_eq_iff {a b : Char} : a = b ↔ a.toNat = b.toNat :=
  ⟨fun h => h ▸ rfl, fun h => Char.ext (UInt32.ext h)⟩

theorem char_toNat_ofNat_valid (n : Nat) (h : n < 55296) :
    (Char.ofNat n).toNat = n := by
  unfold Char.ofNat
  rw [dif_pos (Or.inl h)]
  rfl

theorem hankakuChar_digit {c : Char} (h1 : '０' ≤ c) (h2 : c ≤ '９') :
    (hankakuChar c).toNat + '０'.toNat = c.toNat + '0'.toNat ∧
    '0' ≤ hankakuChar c ∧ hankakuChar c ≤ '9' := by
  have hn1 : (65296 : Nat) ≤ c.toNat := char_le_iff.1 h1
  have hn2 : c.toNat ≤ (65305 : Nat) := char_le_iff.1 h2
  unfold hankakuChar
  rw [if_pos ⟨h1, h2⟩]
  have hv : c.toNat - '０'.toNat + '0'.toNat < 55296 := by
    show c.toNat - 65296 + 48 < 55296
    omega
  have ht := char_toNat_ofNat_valid _ hv
  refine ⟨?_, char_le_iff.2 ?_, char_le_iff.2 ?_⟩
  · rw [ht]
    show c.toNat - 65296 + 48 + 65296 = c.toNat + 48
    omega
  · rw [ht]
    show (48 : Nat) ≤ c.toNat - 65296 + 48
    omega
  · rw [ht]
    show c.toNat - 65296 + 48 ≤ 57
    omega

theorem hankakuChar_upper {c : Char} (h1 : 'Ａ' ≤ c) (h2 : c ≤ 'Ｚ') :
    (hankakuChar c).toNat + 'Ａ'.toNat = c.toNat + 'A'.toNat ∧
    'A' ≤ hankakuChar c ∧ hankakuChar c ≤ 'Z' := by
  have hn1 : (65313 : Nat) ≤ c.toNat := char_le_iff.1 h1
  have hn2 : c.toNat ≤ (65338 : Nat) := char_le_iff.1 h2
  have hnotd : ¬('０' ≤ c ∧ c ≤ '９') := by
    rintro ⟨-, hd⟩
    have := char_le_iff.1 hd
    revert this
    show ¬(c.toNat ≤ 65305)
    omega
  unfold hankakuChar
  rw [if_neg hnotd, if_pos ⟨h1, h2⟩]
  have hv : c.toNat - 'Ａ'.toNat + 'A'.toNat < 55296 := by
    show c.toNat - 65313 + 65 < 55296
    omega
  have ht := char_toNat_ofNat_valid _ hv
  refine ⟨?_, char_le_iff.2 ?_, char_le_iff.2 ?_⟩
  · rw [ht]
    show c.toNat - 65313 + 65 + 65313 = c.toNat + 65
    omega
  · rw [ht]
    show (65 : Nat) ≤ c.toNat - 65313 + 65
    omega
  · rw [ht]
    show c.toNat - 65313 + 65 ≤ 90
    omega

theorem hankakuChar_lower {c : Char} (h1 : 'ａ' ≤ c) (h2 : c ≤ 'ｚ') :
    (hankakuChar c).toNat + 'ａ'.toNat = c.toNat + 'a'.toNat ∧
    'a' ≤ hankakuChar c ∧ hankakuChar c ≤ 'z' := by
  have hn1 : (65345 : Nat) ≤ c.toNat := char_le_iff.1 h1
  have hn2 : c.toNat ≤ (65370 : Nat) := char_le_iff.1 h2
  have hnotd : ¬('０' ≤ c ∧ c ≤ '９') := by
    rintro ⟨-, hd⟩
    have := char_le_iff.1 hd
    revert this
    show ¬(c.toNat ≤ 65305)
    omega
  have hnotu : ¬('Ａ' ≤ c ∧ c ≤ 'Ｚ') := by
    rintro ⟨-, hu⟩
    have := char_le_iff.1 hu
    revert this
    show ¬(c.toNat ≤ 65338)
    omega
  unfold hankakuChar
  rw [if_neg hnotd, if_neg hnotu, if_pos ⟨h1, h2⟩]
  have hv : c.toNat - 'ａ'.toNat + 'a'.toNat < 55296 := by
    show c.toNat - 65345 + 97 < 55296
    omega
  have ht := char_toNat_ofNat_valid _ hv
  refine ⟨?_, char_le_iff.2 ?_, char_le_iff.2 ?_⟩
  · rw [ht]
    show c.toNat - 65345 + 97 + 65345 = c.toNat + 97
    omega
  · rw [ht]
    show (97 : Nat) ≤ c.toNat - 65345 + 97
    omega
  · rw [ht]
    show c.toNat - 65345 + 97 ≤ 122
    omega

theorem hankakuChar_space : hankakuChar '　' = ' ' := by decide

theorem hankakuChar_not_target {c : Char}
    (h : isFullwidthTarget c = false) : hankakuChar c = c := by
  unfold isFullwidthTarget at h
  simp only [Bool.or_eq_false_iff, Bool.and_eq_false_iff,
    decide_eq_false_iff_not, beq_eq_false_iff_ne, ne_eq] at h
  obtain ⟨⟨⟨hd, hu⟩, hl⟩, hs⟩ := h
  have hdn : ¬('０' ≤ c ∧ c ≤ '９') := by
    rintro ⟨a, b⟩
    rcases hd with h' | h' <;> exact h' (by assumption)
  have hun : ¬('Ａ' ≤ c ∧ c ≤ 'Ｚ') := by
    rintro ⟨a, b⟩
    rcases hu with h' | h' <;> exact h' (by assumption)
  have hln : ¬('ａ' ≤ c ∧ c ≤ 'ｚ') := by
    rintro ⟨a, b⟩
    rcases hl with h' | h' <;> exact h' (by assumption)
  unfold hankakuChar
  rw [if_neg hdn, if_neg hun, if_neg hln, if_neg hs]

theorem isFullwidthTarget_iff (c : Char) :
    isFullwidthTarget c = true ↔
      (65296 ≤ c.toNat ∧ c.toNat ≤ 65305) ∨
      (65313 ≤ c.toNat ∧ c.toNat ≤ 65338) ∨
      (65345 ≤ c.toNat ∧ c.toNat ≤ 65370) ∨ c.toNat = 12288 := by
  unfold isFullwidthTarget
  simp only [Bool.or_eq_true, Bool.and_eq_true, decide_eq_true_eq,
    beq_iff_eq, char_le_iff, char_eq_iff]
  constructor
  · rintro (((h | h) | h) | h)
    · exact Or.inl h
    · exact Or.inr (Or.inl h)
    · exact Or.inr (Or.inr (Or.inl h))
    · exact Or.inr (Or.inr (Or.inr h))
  · rintro (h | h | h | h)
    · exact Or.inl (Or.inl (Or.inl h))
    · exact Or.inl (Or.inl (Or.inr h))
    · exact Or.inl (Or.inr h)
    · exact Or.inr h

theorem hankakuChar_target_toNat {c : Char}
    (h : isFullwidthTarget c = true) :
    (65296 ≤ c.toNat ∧ c.toNat ≤ 65305 ∧
      (hankakuChar c).toNat + 65296 = c.toNat + 48) ∨
    (65313 ≤ c.toNat ∧ c.toNat ≤ 65338 ∧
      (hankakuChar c).toNat + 65313 = c.toNat + 65) ∨
    (65345 ≤ c.toNat ∧ c.toNat ≤ 65370 ∧
      (hankakuChar c).toNat + 65345 = c.toNat + 97) ∨
    (c.toNat = 12288 ∧ (hankakuChar c).toNat = 32) := by
  rcases (isFullwidthTarget_iff c).1 h with h' | h' | h' | h'
  · obtain ⟨e, -, -⟩ := hankakuChar_digit (char_le_iff.2 h'.1)
      (char_le_iff.2 h'.2)
    exact Or.inl ⟨h'.1, h'.2, e⟩
  · obtain ⟨e, -, -⟩ := hankakuChar_upper (char_le_iff.2 h'.1)
      (char_le_iff.2 h'.2)
    exact Or.inr (Or.inl ⟨h'.1, h'.2, e⟩)
  · obtain ⟨e, -, -⟩ := hankakuChar_lower (char_le_iff.2 h'.1)
      (char_le_iff.2 h'.2)
    exact Or.inr (Or.inr (Or.inl ⟨h'.1, h'.2, e⟩))
  · have hc : c = '　' := char_eq_iff.2 h'
    subst hc
    exact Or.inr (Or.inr (Or.inr ⟨rfl, rfl⟩))

theorem hankakuChar_injOn {c₁ c₂ : Char}
    (h1 : isFullwidthTarget c₁ = true) (h2 : isFullwidthTarget c₂ = true)
    (h : hankakuChar c₁ = hankakuChar c₂) : c₁ = c₂ := by
  have e := char_eq_iff.1 h
  rw [char_eq_iff]
  rcases hankakuChar_target_toNat h1 with
      ⟨a1, a2, a3⟩ | ⟨a1, a2, a3⟩ | ⟨a1, a2, a3⟩ | ⟨a1, a2⟩ <;>
    rcases hankakuChar_target_toNat h2 with
      ⟨b1, b2, b3⟩ | ⟨b1, b2, b3⟩ | ⟨b1, b2, b3⟩ | ⟨b1, b2⟩ <;>
    omega

theorem hankakuChar_idem (c : Char) :
    hankakuChar (hankakuChar c) = hankakuChar c := by
  by_cases h : isFullwidthTarget c = true
  · have himg := hankakuChar_target_toNat h
    apply hankakuChar_not_target
    rw [Bool.eq_false_iff]
    intro htgt
    rw [isFullwidthTarget_iff] at htgt
    rcases himg with ⟨a1, a2, a3⟩ | ⟨a1, a2, a3⟩ | ⟨a1, a2, a3⟩ | ⟨a1, a2⟩ <;>
      omega
  · have h' : isFullwidthTarget c = false := by
      cases hh : isFullwidthTarget c
      · rfl
      · exact absurd hh h
    rw [hankakuChar_not_target h', hankakuChar_not_target h']

/-- C7: normalization maps each fullwidth digit, fullwidth uppercase letter,
fullwidth lowercase letter and the fullwidth space to its standard-width
counterpart one-to-one, returns every other character unchanged, preserves
the length in characters, and is total. -/
theorem to_hankaku_contract (s : String) :
    (to_hankaku s).length = s.length ∧
    (∀ i c, s.data.get? i = some c →
      (to_hankaku s).data.get? i = some (hankakuChar c)) ∧
    (∀ c, '０' ≤ c → c ≤ '９' →
      (hankakuChar c).toNat + '０'.toNat = c.toNat + '0'.toNat ∧
      '0' ≤ hankakuChar c ∧ hankakuChar c ≤ '9') ∧
    (∀ c, 'Ａ' ≤ c → c ≤ 'Ｚ' →
      (hankakuChar c).toNat + 'Ａ'.toNat = c.toNat + 'A'.toNat ∧
      'A' ≤ hankakuChar c ∧ hankakuChar c ≤ 'Z') ∧
    (∀ c, 'ａ' ≤ c → c ≤ 'ｚ' →
      (hankakuChar c).toNat + 'ａ'.toNat = c.toNat + 'a'.toNat ∧
      'a' ≤ hankakuChar c ∧ hankakuChar c ≤ 'z') ∧
    hankakuChar '　' = ' ' ∧
    (∀ c, isFullwidthTarget c = false → hankakuChar c = c) ∧
    (∀ c₁ c₂, isFullwidthTarget c₁ = true → isFullwidthTarget c₂ = true →
      hankakuChar c₁ = hankakuChar c₂ → c₁ = c₂) := by
  refine ⟨?_, ?_, fun c a b => hankakuChar_digit a b,
    fun c a b => hankakuChar_upper a b, fun c a b => hankakuChar_lower a b,
    hankakuChar_space, fun c a => hankakuChar_not_target a,
    fun c₁ c₂ a b e => hankakuChar_injOn a b e⟩
  · show (s.data.map hankakuChar).length = s.data.length
    exact List.length_map s.data hankakuChar
  · intro i c hc
    show (s.data.map hankakuChar).get? i = some (hankakuChar c)
    rw [List.get?_map, hc]
    rfl

/-- C8: normalization is idempotent — normalizing an already-normalized
string returns it unchanged. -/
theorem to_hankaku_idempotent (s : String) :
    to_hankaku (to_hankaku s) = to_hankaku s := by
  show String.mk ((s.data.map hankakuChar).map hankakuChar)
      = String.mk (s.data.map hankakuChar)
  congr 1
  induction s.data with
  | nil => rfl
  | cons x xs ih =>
    simp only [List.map_cons, hankakuChar_idem x, ih]

theorem getD_set_of_lt (l : List (List String)) (k : Nat) (x : List String)
    (i : Nat) (hk : k < l.length) :
    (l.set k x).getD i [] = if k = i then x else l.getD i [] := by
  rw [List.getD_eq_getElem?_getD, List.getElem?_set]
  split
  · rename_i h
    subst h
    simp [hk]
  · rw [List.getD_eq_getElem?_getD]

theorem processRow_length (shiftCol : Nat) (acc : List (List String))
    (row : List Cell) : (processRow shiftCol acc row).length = acc.length := by
  simp only [processRow]
  split
  · rfl
  · split
    · rfl
    · split
      · rfl
      · split
        · exact List.length_set acc _ _
        · rfl

theorem processRow_getD (shiftCol : Nat) (acc : List (List String))
    (row : List Cell) (i : Nat) (hlen : acc.length = 4) :
    (processRow shiftCol acc row).getD i [] =
      acc.getD i [] ++ (specContribution shiftCol i row).toList := by
  simp only [processRow, specContribution]
  split
  · simp
  · split
    · simp
    · split
      · simp
      · cases hf : findFirst
            (fun kw => strContains (rustTrim (row.getD shiftCol default).text)
              kw) shiftKeywords with
        | none => simp
        | some k =>
          have hk : k < 4 := by
            have := findFirst_lt_length hf
            simpa [shiftKeywords] using this
          rw [getD_set_of_lt acc k _ i (by omega)]
          by_cases hki : k = i
          · subst hki
            simp
          · rw [if_neg hki, if_neg ?_]
            · simp
            · intro hcon
              injection hcon with hcon
              exact hki hcon

theorem foldl_processRow (shiftCol i : Nat) (rows : List (List Cell)) :
    ∀ acc : List (List String), acc.length = 4 →
      (rows.foldl (processRow shiftCol) acc).getD i [] =
        acc.getD i [] ++ rows.filterMap (specContribution shiftCol i) := by
  induction rows with
  | nil =>
    intro acc hlen
    simp
  | cons r rs ih =>
    intro acc hlen
    rw [List.foldl_cons, List.filterMap_cons]
    have hlen' : (processRow shiftCol acc r).length = 4 := by
      rw [processRow_length]
      exact hlen
    rw [ih (processRow shiftCol acc r) hlen']
    rw [processRow_getD shiftCol acc r i hlen]
    cases hspec : specContribution shiftCol i r with
    | none => simp
    | some name => simp

theorem extractStaff_length (grid : List (List Cell))
    (dateRow shiftCol : Nat) :
    (extractStaff grid dateRow shiftCol).length = 4 := by
  unfold extractStaff
  generalize (grid.drop (dateRow + 2)) = rows
  have h4 : emptyStaff.length = 4 := rfl
  generalize emptyStaff = acc at h4 ⊢
  induction rows generalizing acc with
  | nil => exact h4
  | cons r rs ih =>
    rw [List.foldl_cons]
    exact ih (processRow shiftCol acc r) (by rw [processRow_length]; exact h4)

/-- C2: the Roster Extractor processes exactly the rows from `dateRow + 2`
through the last row; a row is skipped when it has fewer than `shiftCol + 1`
cells, when the trimmed shift-marker cell is empty, or when no cell strictly
left of `shiftCol` has non-empty trimmed text; otherwise the leftmost such
non-empty cell is the staff name, assigned to the first category (in the
fixed order early, day, late, night) whose keyword occurs in the marker
text, and to no category when none matches. -/
theorem extractStaff_characterization (grid : List (List Cell))
    (dateRow shiftCol i : Nat) (hi : i < 4) :
    (extractStaff grid dateRow shiftCol).getD i [] =
      (grid.drop (dateRow + 2)).filterMap (specContribution shiftCol i) := by
  unfold extractStaff
  rw [foldl_processRow shiftCol i (grid.drop (dateRow + 2)) emptyStaff rfl]
  have : emptyStaff.getD i [] = [] := by
    match i with
    | 0 => rfl
    | 1 => rfl
    | 2 => rfl
    | 3 => rfl
    | n + 4 => rfl
  rw [this]
  rfl

/-- A small example workbook grid: the date cell `3/14` sits at (0, 1);
rows 2-4 carry the roster data. -/
def gEx : List (List Cell) :=
  [[textCell "", textCell "3/14"],
   [textCell "月", textCell "火"],
   [textCell "Tanaka", textCell "早番"],
   [textCell "", textCell "日勤"],
   [textCell "Yamada", textCell "夜"]]

/-- Witness for C2 on the example grid at category 0 (early). -/
theorem extractStaff_characterization_witness :
    0 < 4 ∧
      (extractStaff gEx 0 1).getD 0 [] =
        (gEx.drop 2).filterMap (specContribution 1 0) :=
  ⟨by decide, extractStaff_characterization gEx 0 1 0 (by decide)⟩

theorem list4 {α : Type} (l : List α) (h : l.length = 4) :
    ∃ a b c d, l = [a, b, c, d] := by
  match l, h with
  | [a, b, c, d], _ => exact ⟨a, b, c, d, rfl⟩

theorem updateNames_getD (prev : List String)
    (collected : List (List String)) (i : Nat) (hp : prev.length = 4)
    (hc : collected.length = 4) (hi : i < 4) :
    (updateNames prev collected).getD i "" =
      if collected.getD i [] = [] then prev.getD i ""
      else String.intercalate "、" (collected.getD i []) := by
  obtain ⟨a, b, c, d, rfl⟩ := list4 prev hp
  obtain ⟨e, f, g, h, rfl⟩ := list4 collected hc
  interval_cases i <;> simp [updateNames, List.isEmpty_iff]

/-- C5: after an extraction pass, each of the four categories that collected
at least one name holds exactly those names joined with the fullwidth comma
`、`, and every category that collected none keeps the prior field value
unchanged. -/
theorem load_excel_category_update (app : ManningApp) (wb : Workbook)
    (range : List (List Cell)) (dateRow shiftCol i : Nat)
    (hlen : app.staff_names.length = 4)
    (hsheets : wb.sheetNames.isEmpty = false)
    (hrange : wb.firstRange = some range)
    (hloc : locateDate range app.today_month app.today_day
        = some (dateRow, shiftCol))
    (hi : i < 4) :
    (load_excel app (Except.ok wb)).staff_names.getD i "" =
      if (extractStaff range dateRow shiftCol).getD i [] = []
      then app.staff_names.getD i ""
      else String.intercalate "、"
        ((extractStaff range dateRow shiftCol).getD i []) := by
  unfold load_excel
  simp only [hsheets, hrange, hloc, Bool.false_eq_true, if_false]
  exact updateNames_getD app.staff_names _ i hlen
    (extractStaff_length range dateRow shiftCol) hi

/-- A concrete application state for the witnesses: today is March 14 and
the four fields hold prior values. -/
def appEx : ManningApp :=
  ⟨"3月14日(木)", 2026, 3, 14, ["", "X", "Y", "Z"], "note", ""⟩

/-- A concrete workbook whose first sheet is `gEx`. -/
def wbEx : Workbook := ⟨["Sheet1"], some gEx⟩

/-- Witness for C5 on the example workbook at category 0 (early). -/
theorem load_excel_category_update_witness :
    appEx.staff_names.length = 4 ∧
    wbEx.sheetNames.isEmpty = false ∧
    wbEx.firstRange = some gEx ∧
    locateDate gEx appEx.today_month appEx.today_day = some (0, 1) ∧
    0 < 4 ∧
    (load_excel appEx (Except.ok wbEx)).staff_names.getD 0 "" =
      (if (extractStaff gEx 0 1).getD 0 [] = []
       then appEx.staff_names.getD 0 ""
       else String.intercalate "、" ((extractStaff gEx 0 1).getD 0 [])) :=
  ⟨rfl, rfl, rfl, by decide, by decide,
   load_excel_category_update appEx wbEx gEx 0 1 0 rfl rfl rfl (by decide)
     (by decide)⟩

/-- C6: a load attempt ending in any of the four error cases (file-open
failure, zero sheets, sheet-read failure, date not found) sets the
corresponding human-readable status message and leaves the four staff-name
fields exactly as they were. -/
theorem load_excel_failure_frame (app : ManningApp)
    (res : Except String Workbook)
    (h : loadSucceedsB res app.today_month app.today_day = false) :
    (load_excel app res).staff_names = app.staff_names ∧
    ((∃ e, res = Except.error e ∧
        (load_excel app res).status_message
          = "❌ ファイルを開けません: " ++ e) ∨
     (load_excel app res).status_message = "❌ シートが見つかりません" ∨
     (load_excel app res).status_message
        = "❌ シートの読み込みに失敗しました" ∨
     (load_excel app res).status_message
        = "❌ 本日(" ++ toString app.today_month ++ "月" ++
            toString app.today_day ++ "日)の日付列が見つかりません") := by
  cases res with
  | error e => exact ⟨rfl, Or.inl ⟨e, rfl, rfl⟩⟩
  | ok wb =>
    simp only [loadSucceedsB] at h
    by_cases hemp : wb.sheetNames.isEmpty = true
    · constructor
      · unfold load_excel
        simp only [hemp, if_true]
      · refine Or.inr (Or.inl ?_)
        unfold load_excel
        simp only [hemp, if_true]
    · have hemp' : wb.sheetNames.isEmpty = false := by
        cases hh : wb.sheetNames.isEmpty
        · rfl
        · exact absurd hh hemp
      rw [hemp'] at h
      simp only [Bool.not_false, Bool.true_and] at h
      cases hfr : wb.firstRange with
      | none =>
        constructor
        · unfold load_excel
          simp only [hemp', hfr, Bool.false_eq_true, if_false]
        · refine Or.inr (Or.inr (Or.inl ?_))
          unfold load_excel
          simp only [hemp', hfr, Bool.false_eq_true, if_false]
      | some range =>
        rw [hfr] at h
        dsimp only at h
        have hloc : locateDate range app.today_month app.today_day
            = none := by
          cases hl : locateDate range app.today_month app.today_day
          · rfl
          · rw [hl] at h
            simp at h
        constructor
        · unfold load_excel
          simp only [hemp', hfr, hloc, Bool.false_eq_true, if_false]
        · refine Or.inr (Or.inr (Or.inr ?_))
          unfold load_excel
          simp only [hemp', hfr, hloc, Bool.false_eq_true, if_false]

/-- Witness for C6: a workbook with zero sheets. -/
theorem load_excel_failure_frame_witness :
    loadSucceedsB (Except.ok (Workbook.mk [] none)) appEx.today_month
        appEx.today_day = false ∧
    ((load_excel appEx (Except.ok (Workbook.mk [] none))).staff_names
        = appEx.staff_names ∧
     ((∃ e, Except.ok (Workbook.mk [] none) = Except.error e ∧
        (load_excel appEx (Except.ok (Workbook.mk [] none))).status_message
          = "❌ ファイルを開けません: " ++ e) ∨
      (load_excel appEx (Except.ok (Workbook.mk [] none))).status_message
        = "❌ シートが見つかりません" ∨
      (load_excel appEx (Except.ok (Workbook.mk [] none))).status_message
        = "❌ シートの読み込みに失敗しました" ∨
      (load_excel appEx (Except.ok (Workbook.mk [] none))).status_message
        = "❌ 本日(" ++ toString appEx.today_month ++ "月" ++
            toString appEx.today_day ++ "日)の日付列が見つかりません")) :=
  ⟨rfl, load_excel_failure_frame appEx (Except.ok (Workbook.mk [] none)) rfl⟩

/-- C10: a load invocation, successful or not, modifies only the staff-name
fields and the status message: the schedule note, the displayed date string
and the stored today components are unchanged. -/
theorem load_excel_frame (app : ManningApp) (res : Except String Workbook) :
    (load_excel app res).schedule_text = app.schedule_text ∧
    (load_excel app res).date_display = app.date_display ∧
    (load_excel app res).today_year = app.today_year ∧
    (load_excel app res).today_month = app.today_month ∧
    (load_excel app res).today_day = app.today_day := by
  cases res with
  | error e => exact ⟨rfl, rfl, rfl, rfl, rfl⟩
  | ok wb =>
    by_cases hemp : wb.sheetNames.isEmpty = true
    · unfold load_excel
      simp [hemp]
    · have hemp' : wb.sheetNames.isEmpty = false := by
        cases hh : wb.sheetNames.isEmpty
        · rfl
        · exact absurd hh hemp
      cases hfr : wb.firstRange with
      | none =>
        unfold load_excel
        simp [hemp', hfr]
      | some range =>
        cases hloc : locateDate range app.today_month app.today_day with
        | none =>
          unfold load_excel
          simp [hemp', hfr, hloc]
        | some rc =>
          obtain ⟨r, c⟩ := rc
          unfold load_excel
          simp [hemp', hfr, hloc]
